import Mathlib

/-!
Verification of src/social_network.py: a social network graph with
people as nodes and undirected friendships as edges.

Embedding notes.  Python objects live on a heap and are compared by
object identity (the keyword is, and the default ==).  We model the
heap as a list of Person records; a reference to a Person object is
its index in that list.  The Python dict self.people preserves
insertion order and is modelled as an insertion-ordered association
list from names to references.  Every mutating method is embedded as
a function from the old state to the new state paired with the
diagnostic it prints, if any.
-/

set_option autoImplicit false

namespace SocialNet

/-- A Person object of social_network.py: a name and a friends list.
The friends list stores references (heap indices) to other Person
objects, in insertion order, mirroring the Python attribute
self.friends which is a list of Person references. -/
structure Person where
  name : String
  friends : List Nat
deriving DecidableEq, Repr

/-- Person.add_friend from the source, for the object self living at
heap index selfRef, adding the object at index friendRef.  The check
friend is self is reference equality, and the check friend not in
self.friends compares list elements with default object equality,
which is again reference equality; both are index comparisons here. -/
def Person.add_friend (self : Person) (selfRef : Nat) (friendRef : Nat) : Person :=
  if friendRef = selfRef then self
  else if friendRef ∈ self.friends then self
  else { self with friends := self.friends ++ [friendRef] }

/-- The three recoverable diagnostics the code prints.  Each
constructor corresponds to one print statement of the source:
duplicatePerson to "Person not added. ... already exists!",
unknownPerson to "Friendship not created. ... does not exist!"
(reported per side, carrying that side), and selfFriendship to
"Friendship not created. A person cannot be friends with themselves!". -/
inductive Diag where
  | duplicatePerson (name : String)
  | unknownPerson (name : String)
  | selfFriendship
deriving DecidableEq, Repr

/-- Lookup in the registry dict: Python name in self.people and
self.people[name].  Keys are unique in every reachable state, so
first-match lookup is exactly the dict lookup. -/
def dictLookup : List (String × Nat) → String → Option Nat
  | [], _ => none
  | (k, v) :: rest, key => if k = key then some v else dictLookup rest key

/-- The SocialNetwork object: the heap of all Person objects ever
created (index = reference) and the dict self.people mapping names to
references in insertion order. -/
structure SocialNetwork where
  heap : List Person
  people : List (String × Nat)
deriving DecidableEq, Repr

/-- The state built by SocialNetwork.__init__: no people. -/
def SocialNetwork.empty : SocialNetwork := ⟨[], []⟩

/-- SocialNetwork.add_person from the source: if the name is already a
key of self.people, print the duplicate diagnostic and return;
otherwise allocate a fresh Person(name) on the heap and store it in
the dict under name. -/
def SocialNetwork.add_person (n : SocialNetwork) (name : String) :
    SocialNetwork × Option Diag :=
  if (dictLookup n.people name).isSome then
    (n, some (Diag.duplicatePerson name))
  else
    ({ heap := n.heap ++ [⟨name, []⟩],
       people := n.people ++ [(name, n.heap.length)] }, none)

/-- The statement p.add_friend(q) performed on the heap: read the
object at selfRef, run Person.add_friend, write the result back.  In
every reachable state selfRef is a valid index, so the none branch is
never taken; it only makes the function total. -/
def heapAddFriend (heap : List Person) (selfRef friendRef : Nat) : List Person :=
  match heap.get? selfRef with
  | none => heap
  | some p => heap.set selfRef (p.add_friend selfRef friendRef)

/-- SocialNetwork.add_friendship from the source: check in order that
person1_name is registered, that person2_name is registered, and that
the two names differ, printing the corresponding diagnostic and
returning at the first failed check; otherwise resolve both Person
objects and run p1.add_friend(p2) followed by p2.add_friend(p1). -/
def SocialNetwork.add_friendship (n : SocialNetwork) (a b : String) :
    SocialNetwork × Option Diag :=
  match dictLookup n.people a with
  | none => (n, some (Diag.unknownPerson a))
  | some ra =>
    match dictLookup n.people b with
    | none => (n, some (Diag.unknownPerson b))
    | some rb =>
      if a = b then (n, some Diag.selfFriendship)
      else
        ({ n with heap := heapAddFriend (heapAddFriend n.heap ra rb) rb ra }, none)

/-- Lexicographic less-or-equal on lists of characters, comparing
characters by code point: the order Python uses to sort strings. -/
def lexLe : List Char → List Char → Bool
  | [], _ => true
  | _ :: _, [] => false
  | a :: as, b :: bs =>
    if a.toNat < b.toNat then true
    else if b.toNat < a.toNat then false
    else lexLe as bs

/-- Lexicographic less-or-equal on strings by code point. -/
def strLe (a b : String) : Bool := lexLe a.data b.data

/-- Insertion into a lexicographically sorted list of strings. -/
def insertSorted (x : String) : List String → List String
  | [] => [x]
  | y :: ys => if strLe x y then x :: y :: ys else y :: insertSorted x ys

/-- The call friend_names.sort(): lexicographic ascending sort of a
list of strings, as insertion sort.  Python list.sort on strings is a
stable lexicographic sort; on strings stability is invisible, so any
lexicographic sort is extensionally the same. -/
def sortStrings : List String → List String
  | [] => []
  | x :: xs => insertSorted x (sortStrings xs)

/-- The loop body of print_network for one dict entry: build the fresh
local list friend_names = [f.name for f in person.friends], sort that
local copy, join with ", " or fall back to the placeholder, and format
the line.  The none branches make the lookups total; in every
reachable state each reference resolves. -/
def reportLine (n : SocialNetwork) (entry : String × Nat) : String :=
  match n.heap.get? entry.2 with
  | none => ""
  | some person =>
    let friend_names :=
      person.friends.filterMap (fun r => Option.map Person.name (n.heap.get? r))
    let sorted := sortStrings friend_names
    let friends_str :=
      if sorted = [] then "(no friends yet)" else String.intercalate ", " sorted
    person.name ++ " is friends with: " ++ friends_str

/-- SocialNetwork.print_network from the source: iterate over the dict
in insertion order, emit one line per person, and return the resulting
state as well, mirroring that the method body never assigns to any
attribute of self or of any Person (the only sort is applied to the
per-iteration local copy friend_names). -/
def SocialNetwork.print_network (n : SocialNetwork) :
    List String × SocialNetwork :=
  (n.people.map (reportLine n), n)

/-- One call of the driver script: either network.add_person(name) or
network.add_friendship(a, b). -/
inductive Op where
  | person (name : String)
  | friendship (a b : String)
deriving DecidableEq, Repr

/-- Apply one call to the state, discarding the diagnostic. -/
def applyOp (n : SocialNetwork) : Op → SocialNetwork
  | Op.person name => (n.add_person name).1
  | Op.friendship a b => (n.add_friendship a b).1

/-- Run a sequence of calls from a starting state. -/
def run (n : SocialNetwork) : List Op → SocialNetwork
  | [] => n
  | op :: ops => run (applyOp n op) ops

/-- The states reachable from the empty network by add_person and
add_friendship calls: exactly the states a caller of the class can
produce. -/
inductive Reachable : SocialNetwork → Prop
  | empty : Reachable SocialNetwork.empty
  | addPerson (n : SocialNetwork) (name : String) :
      Reachable n → Reachable (n.add_person name).1
  | addFriendship (n : SocialNetwork) (a b : String) :
      Reachable n → Reachable (n.add_friendship a b).1

/-- The registration sequence of the demo driver in __main__: six
people, then the eight friendships, in source order. -/
def demoOps : List Op :=
  [Op.person "Alex", Op.person "Jordan", Op.person "Morgan",
   Op.person "Taylor", Op.person "Casey", Op.person "Riley",
   Op.friendship "Alex" "Jordan", Op.friendship "Alex" "Morgan",
   Op.friendship "Jordan" "Taylor", Op.friendship "Morgan" "Casey",
   Op.friendship "Taylor" "Riley", Op.friendship "Casey" "Riley",
   Op.friendship "Morgan" "Riley", Op.friendship "Alex" "Taylor"]

/-- The network state after the demo registrations and friendships. -/
def demoState : SocialNetwork := run SocialNetwork.empty demoOps

/-- Is the person named b registered and listed among the friends of
the registered person named a?  This is the membership observation the
spec phrases as "b is in the neighbor set of a". -/
def isFriend (n : SocialNetwork) (a b : String) : Bool :=
  match dictLookup n.people a, dictLookup n.people b with
  | some ra, some rb =>
    match n.heap.get? ra with
    | some pa => rb ∈ pa.friends
    | none => false
  | _, _ => false

/-- Number of dict entries whose key is k; in every reachable state
this is 0 or 1, since dict keys are unique. -/
def countKey (l : List (String × Nat)) (k : String) : Nat :=
  (l.filter fun e => e.1 == k).length

/-- Basic helper lemmas about the embedding. -/

theorem dictLookup_eq_none_iff (l : List (String × Nat)) (k : String) :
    dictLookup l k = none ↔ k ∉ l.map Prod.fst := by
  induction l with
  | nil => simp [dictLookup]
  | cons e t ih =>
    by_cases h : e.1 = k
    · simp [dictLookup, h]
    · simp [dictLookup, h, ih, Ne.symm h]

theorem dictLookup_mem {l : List (String × Nat)} {k : String} {v : Nat}
    (h : dictLookup l k = some v) : (k, v) ∈ l := by
  induction l with
  | nil => simp [dictLookup] at h
  | cons e t ih =>
    obtain ⟨k1, v1⟩ := e
    by_cases he : k1 = k
    · subst he
      simp [dictLookup] at h
      subst h
      exact List.mem_cons_self _ _
    · simp [dictLookup, he] at h
      exact List.mem_cons_of_mem _ (ih h)

theorem dictLookup_append (l m : List (String × Nat)) (k : String) :
    dictLookup (l ++ m) k =
      match dictLookup l k with
      | some v => some v
      | none => dictLookup m k := by
  induction l with
  | nil => simp [dictLookup]
  | cons e t ih =>
    by_cases he : e.1 = k
    · simp [dictLookup, he]
    · simp [dictLookup, he, ih]

theorem countKey_append (l m : List (String × Nat)) (k : String) :
    countKey (l ++ m) k = countKey l k + countKey m k := by
  simp [countKey, List.filter_append]

theorem countKey_eq_zero_of_not_mem {l : List (String × Nat)} {k : String}
    (h : k ∉ l.map Prod.fst) : countKey l k = 0 := by
  induction l with
  | nil => rfl
  | cons e t ih =>
    simp only [List.map_cons, List.mem_cons] at h
    push_neg at h
    have he : (e.1 == k) = false := by
      rw [beq_eq_false_iff_ne]
      exact Ne.symm h.1
    have ht := ih h.2
    simp only [countKey, List.filter_cons, he] at ht ⊢
    simpa using ht

theorem countKey_eq_one_of_nodup {l : List (String × Nat)} {k : String}
    (hn : (l.map Prod.fst).Nodup) (hm : k ∈ l.map Prod.fst) :
    countKey l k = 1 := by
  induction l with
  | nil => simp at hm
  | cons e t ih =>
    simp only [List.map_cons, List.nodup_cons] at hn
    simp only [List.map_cons, List.mem_cons] at hm
    by_cases he : e.1 = k
    · have hz : countKey t k = 0 := countKey_eq_zero_of_not_mem (he ▸ hn.1)
      have he' : (e.1 == k) = true := by rw [beq_iff_eq]; exact he
      simp only [countKey, List.filter_cons, he', if_true, List.length_cons]
      simp only [countKey] at hz
      omega
    · have hm' : k ∈ t.map Prod.fst := by
        rcases hm with h | h
        · exact absurd h.symm he
        · exact h
      have he' : (e.1 == k) = false := by
        rw [beq_eq_false_iff_ne]
        exact he
      have ht := ih hn.2 hm'
      simp only [countKey, List.filter_cons, he'] at ht ⊢
      simpa using ht

theorem list_set_self {α : Type} {l : List α} {i : Nat} {x : α}
    (h : l.get? i = some x) : l.set i x = l := by
  induction l generalizing i with
  | nil => cases h
  | cons a t ih =>
    cases i with
    | zero =>
      have hax : a = x := Option.some.inj h
      subst hax
      rfl
    | succ j =>
      have h' : t.get? j = some x := h
      show a :: t.set j x = a :: t
      rw [ih h']

/-- The name attribute is untouched by add_friend. -/
theorem add_friend_name (p : Person) (s f : Nat) :
    (p.add_friend s f).name = p.name := by
  unfold Person.add_friend
  split
  · rfl
  · split <;> rfl

/-- Membership in the friends list after add_friend, when the two
references differ: the new list holds exactly the old members and the
added reference. -/
theorem add_friend_mem (p : Person) (s f : Nat) (hne : f ≠ s) (x : Nat) :
    x ∈ (p.add_friend s f).friends ↔ x ∈ p.friends ∨ x = f := by
  unfold Person.add_friend
  rw [if_neg hne]
  by_cases hf : f ∈ p.friends
  · rw [if_pos hf]
    constructor
    · exact Or.inl
    · rintro (h | rfl)
      · exact h
      · exact hf
  · rw [if_neg hf]
    simp

/-- add_friend on an already-present reference is the identity. -/
theorem add_friend_of_mem (p : Person) (s f : Nat) (hf : f ∈ p.friends) :
    p.add_friend s f = p := by
  unfold Person.add_friend
  by_cases h : f = s
  · rw [if_pos h]
  · rw [if_neg h, if_pos hf]

/-- The state invariant the class maintains.  keysEq and valsEq say
that the dict maps, in insertion order, the i-th created name to the
reference i; namesNodup says names are unique; friendsValid says every
stored reference points into the heap; noSelf says no person lists
itself; symm is the undirected-edge property. -/
structure Inv (n : SocialNetwork) : Prop where
  keysEq : n.people.map Prod.fst = n.heap.map Person.name
  valsEq : n.people.map Prod.snd = List.range n.heap.length
  namesNodup : (n.heap.map Person.name).Nodup
  friendsValid : ∀ i p, n.heap.get? i = some p → ∀ r ∈ p.friends, r < n.heap.length
  noSelf : ∀ i p, n.heap.get? i = some p → i ∉ p.friends
  symm : ∀ i j p q, n.heap.get? i = some p → n.heap.get? j = some q →
    (j ∈ p.friends ↔ i ∈ q.friends)

theorem Inv.peopleLen {n : SocialNetwork} (inv : Inv n) :
    n.people.length = n.heap.length := by
  have := congrArg List.length inv.valsEq
  simpa using this

/-- A successful registry lookup yields a valid heap reference. -/
theorem Inv.lookup_lt {n : SocialNetwork} (inv : Inv n) {a : String} {r : Nat}
    (h : dictLookup n.people a = some r) : r < n.heap.length := by
  have hm : (a, r) ∈ n.people := dictLookup_mem h
  have : r ∈ n.people.map Prod.snd := List.mem_map_of_mem Prod.snd hm
  rw [inv.valsEq] at this
  exact List.mem_range.1 this

theorem get?_eq_some_of_lt {α : Type} (l : List α) (i : Nat) (h : i < l.length) :
    ∃ x, l.get? i = some x := by
  rw [List.get?_eq_getElem?]
  exact ⟨l[i], List.getElem?_eq_getElem h⟩

/-- The person at the reference a registry lookup returns carries the
looked-up name. -/
theorem Inv.lookup_name {n : SocialNetwork} (inv : Inv n) {a : String} {r : Nat}
    (h : dictLookup n.people a = some r) :
    ∀ p, n.heap.get? r = some p → p.name = a := by
  intro p hp
  have hm : (a, r) ∈ n.people := dictLookup_mem h
  obtain ⟨i, hi, hgi⟩ := List.mem_iff_getElem.1 hm
  have hgiq : n.people[i]? = some (a, r) := by
    rw [List.getElem?_eq_getElem hi, hgi]
  have hval := congrArg (fun l => l[i]?) inv.valsEq
  simp only [List.getElem?_map] at hval
  rw [hgiq] at hval
  have hiLen : i < n.heap.length := by
    have hple := inv.peopleLen
    omega
  rw [List.getElem?_eq_getElem (by simpa using hiLen), List.getElem_range] at hval
  have hri : r = i := by simpa using hval
  have hkey := congrArg (fun l => l[i]?) inv.keysEq
  simp only [List.getElem?_map] at hkey
  rw [hgiq] at hkey
  rw [List.get?_eq_getElem?, hri] at hp
  rw [hp] at hkey
  simpa using hkey.symm

/-- Distinct names registered in the dict resolve to distinct heap
references. -/
theorem Inv.lookup_inj {n : SocialNetwork} (inv : Inv n) {a b : String}
    {ra rb : Nat} (ha : dictLookup n.people a = some ra)
    (hb : dictLookup n.people b = some rb) (hab : a ≠ b) : ra ≠ rb := by
  intro hr
  subst hr
  have hlt : ra < n.heap.length := inv.lookup_lt ha
  obtain ⟨p, hp⟩ := get?_eq_some_of_lt n.heap ra hlt
  have h1 := inv.lookup_name ha p hp
  have h2 := inv.lookup_name hb p hp
  exact hab (h1 ▸ h2 ▸ rfl)

/-- The empty network satisfies the invariant. -/
theorem inv_empty : Inv SocialNetwork.empty := by
  refine ⟨rfl, rfl, List.nodup_nil, ?_, ?_, ?_⟩
  · intro i p h
    cases h
  · intro i p h
    cases h
  · intro i j p q h
    cases h

theorem get?_append_singleton {α : Type} (l : List α) (a : α) (i : Nat) (p : α)
    (h : (l ++ [a]).get? i = some p) :
    (i < l.length ∧ l.get? i = some p) ∨ (i = l.length ∧ p = a) := by
  rw [List.get?_eq_getElem?] at h
  by_cases hi : i < l.length
  · left
    refine ⟨hi, ?_⟩
    rw [List.get?_eq_getElem?]
    rwa [List.getElem?_append_left hi] at h
  · right
    rw [List.getElem?_append_right (Nat.le_of_not_lt hi)] at h
    cases hk : i - l.length with
    | zero =>
      rw [hk] at h
      exact ⟨by omega, (Option.some.inj h).symm⟩
    | succ m =>
      rw [hk] at h
      simp at h

/-- add_person preserves the invariant. -/
theorem inv_add_person {n : SocialNetwork} (inv : Inv n) (x : String) :
    Inv (n.add_person x).1 := by
  by_cases hx : (dictLookup n.people x).isSome
  · simpa [SocialNetwork.add_person, hx] using inv
  · have hnone : dictLookup n.people x = none := by
      cases h : dictLookup n.people x
      · rfl
      · rw [h] at hx; simp at hx
    have hxmem : x ∉ n.people.map Prod.fst := (dictLookup_eq_none_iff _ _).1 hnone
    have hxname : x ∉ n.heap.map Person.name := inv.keysEq ▸ hxmem
    have hmain : (n.add_person x).1 =
        ⟨n.heap ++ [⟨x, []⟩], n.people ++ [(x, n.heap.length)]⟩ := by
      simp [SocialNetwork.add_person, hnone]
    rw [hmain]
    refine ⟨?_, ?_, ?_, ?_, ?_, ?_⟩
    · simp [inv.keysEq]
    · simp [inv.valsEq, List.range_succ]
    · simp only [List.map_append, List.map_cons, List.map_nil]
      exact inv.namesNodup.append (List.nodup_singleton x)
        (by intro c hc hcx
            rw [List.mem_singleton] at hcx
            subst hcx
            exact hxname hc)
    · intro i p hp r hr
      rcases get?_append_singleton _ _ _ _ hp with ⟨hi, hget⟩ | ⟨hi, hpx⟩
      · have := inv.friendsValid i p hget r hr
        simp only [List.length_append, List.length_cons, List.length_nil]
        omega
      · subst hpx
        simp at hr
    · intro i p hp
      rcases get?_append_singleton _ _ _ _ hp with ⟨hi, hget⟩ | ⟨hi, hpx⟩
      · exact inv.noSelf i p hget
      · subst hpx
        simp
    · intro i j p q hp hq
      rcases get?_append_singleton _ _ _ _ hp with ⟨hi, hgi⟩ | ⟨hi, hpx⟩
      · rcases get?_append_singleton _ _ _ _ hq with ⟨hj, hgj⟩ | ⟨hj, hqx⟩
        · exact inv.symm i j p q hgi hgj
        · subst hqx
          constructor
          · intro hmem
            have := inv.friendsValid i p hgi j hmem
            omega
          · intro hmem
            simp at hmem
      · subst hpx
        constructor
        · intro hmem
          simp at hmem
        · intro hmem
          rcases get?_append_singleton _ _ _ _ hq with ⟨hj, hgj⟩ | ⟨hj, hqx⟩
          · have := inv.friendsValid j q hgj i hmem
            omega
          · subst hqx
            simp at hmem

theorem heapAddFriend_get? (h : List Person) (s f : Nat) (p : Person)
    (hp : h.get? s = some p) (i : Nat) :
    (heapAddFriend h s f).get? i =
      if i = s then some (p.add_friend s f) else h.get? i := by
  unfold heapAddFriend
  rw [hp]
  by_cases hi : i = s
  · subst hi
    rw [if_pos rfl, List.get?_eq_getElem?]
    have hlt : i < h.length := by
      rw [List.get?_eq_getElem?] at hp
      exact (List.getElem?_eq_some_iff.1 hp).1
    exact List.getElem?_set_self hlt
  · rw [if_neg hi, List.get?_eq_getElem?, List.getElem?_set_ne (Ne.symm hi),
      ← List.get?_eq_getElem?]

theorem heapAddFriend_eq_set (h : List Person) (s f : Nat) (p : Person)
    (hp : h.get? s = some p) :
    heapAddFriend h s f = h.set s (p.add_friend s f) := by
  unfold heapAddFriend
  rw [hp]

theorem heapAddFriend_length (h : List Person) (s f : Nat) :
    (heapAddFriend h s f).length = h.length := by
  unfold heapAddFriend
  cases hg : h.get? s
  · rfl
  · simp

/-- In the success branch of add_friendship the updated heap reads as
follows: the person at the second reference got the first added, the
person at the first reference got the second added, everyone else is
untouched. -/
theorem add_friendship_heap_get? {n : SocialNetwork} {ra rb : Nat}
    {pa pb : Person} (hne : ra ≠ rb) (hga : n.heap.get? ra = some pa)
    (hgb : n.heap.get? rb = some pb) (i : Nat) :
    (heapAddFriend (heapAddFriend n.heap ra rb) rb ra).get? i =
      if i = rb then some (pb.add_friend rb ra)
      else if i = ra then some (pa.add_friend ra rb)
      else n.heap.get? i := by
  have hg1 : ∀ k, (heapAddFriend n.heap ra rb).get? k =
      if k = ra then some (pa.add_friend ra rb) else n.heap.get? k :=
    heapAddFriend_get? n.heap ra rb pa hga
  have hgb1 : (heapAddFriend n.heap ra rb).get? rb = some pb := by
    rw [hg1 rb, if_neg (Ne.symm hne)]
    exact hgb
  rw [heapAddFriend_get? _ rb ra pb hgb1 i]
  by_cases hirb : i = rb
  · rw [if_pos hirb, if_pos hirb]
  · rw [if_neg hirb, if_neg hirb, hg1 i]

/-- add_friendship preserves the invariant. -/
theorem inv_add_friendship {n : SocialNetwork} (inv : Inv n) (a b : String) :
    Inv (n.add_friendship a b).1 := by
  cases ha : dictLookup n.people a with
  | none => simpa [SocialNetwork.add_friendship, ha] using inv
  | some ra =>
    cases hb : dictLookup n.people b with
    | none => simpa [SocialNetwork.add_friendship, ha, hb] using inv
    | some rb =>
      by_cases hab : a = b
      · simpa [SocialNetwork.add_friendship, ha, hb, hab] using inv
      · have hra : ra < n.heap.length := inv.lookup_lt ha
        have hrb : rb < n.heap.length := inv.lookup_lt hb
        have hne : ra ≠ rb := inv.lookup_inj ha hb hab
        obtain ⟨pa, hga⟩ := get?_eq_some_of_lt n.heap ra hra
        obtain ⟨pb, hgb⟩ := get?_eq_some_of_lt n.heap rb hrb
        have hmain : (n.add_friendship a b).1 =
            ⟨heapAddFriend (heapAddFriend n.heap ra rb) rb ra, n.people⟩ := by
          simp [SocialNetwork.add_friendship, ha, hb, hab]
        have hg := add_friendship_heap_get? hne hga hgb
        have hlen2 : (heapAddFriend (heapAddFriend n.heap ra rb) rb ra).length
            = n.heap.length := by
          rw [heapAddFriend_length, heapAddFriend_length]
        have hnames : (heapAddFriend (heapAddFriend n.heap ra rb) rb ra).map
            Person.name = n.heap.map Person.name := by
          apply List.ext_getElem?
          intro i
          rw [List.getElem?_map, List.getElem?_map, ← List.get?_eq_getElem?,
            ← List.get?_eq_getElem?, hg i]
          by_cases hirb : i = rb
          · subst hirb
            rw [if_pos rfl, hgb]
            simp [add_friend_name]
          · rw [if_neg hirb]
            by_cases hira : i = ra
            · subst hira
              rw [if_pos rfl, hga]
              simp [add_friend_name]
            · rw [if_neg hira]
        -- old facts used in the case analysis
        have na : ra ∉ pa.friends := inv.noSelf ra pa hga
        have nb : rb ∉ pb.friends := inv.noSelf rb pb hgb
        have fa : ∀ r ∈ pa.friends, r < n.heap.length := inv.friendsValid ra pa hga
        have fb : ∀ r ∈ pb.friends, r < n.heap.length := inv.friendsValid rb pb hgb
        rw [hmain]
        refine ⟨?_, ?_, ?_, ?_, ?_, ?_⟩
        · rw [hnames]
          exact inv.keysEq
        · rw [hlen2]
          exact inv.valsEq
        · rw [hnames]
          exact inv.namesNodup
        · intro i p hp r hr
          rw [hlen2]
          rw [hg i] at hp
          by_cases hirb : i = rb
          · rw [if_pos hirb] at hp
            obtain rfl : pb.add_friend rb ra = p := Option.some.inj hp
            rcases (add_friend_mem pb rb ra hne r).1 hr with hm | rfl
            · exact fb r hm
            · exact hra
          · rw [if_neg hirb] at hp
            by_cases hira : i = ra
            · rw [if_pos hira] at hp
              obtain rfl : pa.add_friend ra rb = p := Option.some.inj hp
              rcases (add_friend_mem pa ra rb (Ne.symm hne) r).1 hr with hm | rfl
              · exact fa r hm
              · exact hrb
            · rw [if_neg hira] at hp
              exact inv.friendsValid i p hp r hr
        · intro i p hp
          rw [hg i] at hp
          by_cases hirb : i = rb
          · rw [if_pos hirb] at hp
            obtain rfl : pb.add_friend rb ra = p := Option.some.inj hp
            rw [hirb]
            intro hmem
            rcases (add_friend_mem pb rb ra hne rb).1 hmem with hm | h
            · exact nb hm
            · exact hne h.symm
          · rw [if_neg hirb] at hp
            by_cases hira : i = ra
            · rw [if_pos hira] at hp
              obtain rfl : pa.add_friend ra rb = p := Option.some.inj hp
              rw [hira]
              intro hmem
              rcases (add_friend_mem pa ra rb (Ne.symm hne) ra).1 hmem with hm | h
              · exact na hm
              · exact hne h
            · rw [if_neg hira] at hp
              exact inv.noSelf i p hp
        · intro i j p q hp hq
          rw [hg i] at hp
          rw [hg j] at hq
          by_cases hirb : i = rb
          · rw [if_pos hirb] at hp
            obtain rfl : pb.add_friend rb ra = p := Option.some.inj hp
            by_cases hjrb : j = rb
            · rw [if_pos hjrb] at hq
              obtain rfl : pb.add_friend rb ra = q := Option.some.inj hq
              rw [hirb, hjrb]
            · rw [if_neg hjrb] at hq
              by_cases hjra : j = ra
              · rw [if_pos hjra] at hq
                obtain rfl : pa.add_friend ra rb = q := Option.some.inj hq
                rw [hirb, hjra]
                constructor
                · intro _
                  exact (add_friend_mem pa ra rb (Ne.symm hne) rb).2 (Or.inr rfl)
                · intro _
                  exact (add_friend_mem pb rb ra hne ra).2 (Or.inr rfl)
              · rw [if_neg hjra] at hq
                rw [hirb, add_friend_mem pb rb ra hne j]
                have hsym := inv.symm rb j pb q hgb hq
                constructor
                · rintro (hm | rfl)
                  · exact hsym.1 hm
                  · exact absurd rfl hjra
                · intro hm
                  exact Or.inl (hsym.2 hm)
          · rw [if_neg hirb] at hp
            by_cases hira : i = ra
            · rw [if_pos hira] at hp
              obtain rfl : pa.add_friend ra rb = p := Option.some.inj hp
              by_cases hjrb : j = rb
              · rw [if_pos hjrb] at hq
                obtain rfl : pb.add_friend rb ra = q := Option.some.inj hq
                rw [hira, hjrb]
                constructor
                · intro _
                  exact (add_friend_mem pb rb ra hne ra).2 (Or.inr rfl)
                · intro _
                  exact (add_friend_mem pa ra rb (Ne.symm hne) rb).2 (Or.inr rfl)
              · rw [if_neg hjrb] at hq
                by_cases hjra : j = ra
                · rw [if_pos hjra] at hq
                  obtain rfl : pa.add_friend ra rb = q := Option.some.inj hq
                  rw [hira, hjra]
                · rw [if_neg hjra] at hq
                  rw [hira, add_friend_mem pa ra rb (Ne.symm hne) j]
                  have hsym := inv.symm ra j pa q hga hq
                  constructor
                  · rintro (hm | rfl)
                    · exact hsym.1 hm
                    · exact absurd rfl hjrb
                  · intro hm
                    exact Or.inl (hsym.2 hm)
            · rw [if_neg hira] at hp
              by_cases hjrb : j = rb
              · rw [if_pos hjrb] at hq
                obtain rfl : pb.add_friend rb ra = q := Option.some.inj hq
                rw [hjrb, add_friend_mem pb rb ra hne i]
                have hsym := inv.symm i rb p pb hp hgb
                constructor
                · intro hm
                  exact Or.inl (hsym.1 hm)
                · rintro (hm | rfl)
                  · exact hsym.2 hm
                  · exact absurd rfl hira
              · rw [if_neg hjrb] at hq
                by_cases hjra : j = ra
                · rw [if_pos hjra] at hq
                  obtain rfl : pa.add_friend ra rb = q := Option.some.inj hq
                  rw [hjra, add_friend_mem pa ra rb (Ne.symm hne) i]
                  have hsym := inv.symm i ra p pa hp hga
                  constructor
                  · intro hm
                    exact Or.inl (hsym.1 hm)
                  · rintro (hm | rfl)
                    · exact hsym.2 hm
                    · exact absurd rfl hirb
                · rw [if_neg hjra] at hq
                  exact inv.symm i j p q hp hq

/-- Every reachable state satisfies the invariant. -/
theorem reachable_inv {n : SocialNetwork} (h : Reachable n) : Inv n := by
  induction h with
  | empty => exact inv_empty
  | addPerson m name _ ih => exact inv_add_person ih name
  | addFriendship m a b _ ih => exact inv_add_friendship ih a b

/-- Running any sequence of calls from a reachable state stays
reachable. -/
theorem reachable_run {n : SocialNetwork} (h : Reachable n) :
    ∀ ops : List Op, Reachable (run n ops) := by
  intro ops
  induction ops generalizing n with
  | nil => exact h
  | cons op rest ih =>
    cases op with
    | person name => exact ih (Reachable.addPerson n name h)
    | friendship a b => exact ih (Reachable.addFriendship n a b h)

/-- The demo state of the driver script is reachable. -/
theorem demoState_reachable : Reachable demoState :=
  reachable_run Reachable.empty demoOps

/-- Commuting the two references in the paired add_friend updates
yields the same heap, for every heap and every pair of references. -/
theorem heapAddFriend_comm (h : List Person) (ra rb : Nat) :
    heapAddFriend (heapAddFriend h ra rb) rb ra
      = heapAddFriend (heapAddFriend h rb ra) ra rb := by
  by_cases hne : ra = rb
  · subst hne
    rfl
  cases hga : h.get? ra with
  | none =>
    have e1 : heapAddFriend h ra rb = h := by
      unfold heapAddFriend
      rw [hga]
    rw [e1]
    cases hgb : h.get? rb with
    | none =>
      have e2 : heapAddFriend h rb ra = h := by
        unfold heapAddFriend
        rw [hgb]
      rw [e2, e1]
    | some pb =>
      have e2 : heapAddFriend h rb ra = h.set rb (pb.add_friend rb ra) := by
        unfold heapAddFriend
        rw [hgb]
      rw [e2]
      have e3 : (h.set rb (pb.add_friend rb ra)).get? ra = none := by
        rw [List.get?_eq_getElem?, List.getElem?_set_ne (Ne.symm hne),
          ← List.get?_eq_getElem?]
        exact hga
      conv_rhs => rw [heapAddFriend]
      rw [e3]
  | some pa =>
    cases hgb : h.get? rb with
    | none =>
      have e1 : heapAddFriend h rb ra = h := by
        unfold heapAddFriend
        rw [hgb]
      rw [e1]
      have e2 : heapAddFriend h ra rb = h.set ra (pa.add_friend ra rb) := by
        unfold heapAddFriend
        rw [hga]
      rw [e2]
      have e3 : (h.set ra (pa.add_friend ra rb)).get? rb = none := by
        rw [List.get?_eq_getElem?, List.getElem?_set_ne hne,
          ← List.get?_eq_getElem?]
        exact hgb
      conv_lhs => rw [heapAddFriend]
      rw [e3]
    | some pb =>
      have e1 : heapAddFriend h ra rb = h.set ra (pa.add_friend ra rb) := by
        unfold heapAddFriend
        rw [hga]
      have e2 : heapAddFriend h rb ra = h.set rb (pb.add_friend rb ra) := by
        unfold heapAddFriend
        rw [hgb]
      rw [e1, e2]
      have e3 : (h.set ra (pa.add_friend ra rb)).get? rb = some pb := by
        rw [List.get?_eq_getElem?, List.getElem?_set_ne hne,
          ← List.get?_eq_getElem?]
        exact hgb
      have e4 : (h.set rb (pb.add_friend rb ra)).get? ra = some pa := by
        rw [List.get?_eq_getElem?, List.getElem?_set_ne (Ne.symm hne),
          ← List.get?_eq_getElem?]
        exact hga
      unfold heapAddFriend
      rw [e3, e4]
      exact List.set_comm _ _ _ hne

theorem lexLe_trans {x y z : List Char} (hxy : lexLe x y = true)
    (hyz : lexLe y z = true) : lexLe x z = true := by
  induction x generalizing y z with
  | nil => rfl
  | cons a as ih =>
    cases y with
    | nil => simp [lexLe] at hxy
    | cons b bs =>
      cases z with
      | nil => simp [lexLe] at hyz
      | cons c cs =>
        simp only [lexLe] at hxy hyz ⊢
        by_cases hab : a.toNat < b.toNat
        · by_cases hbc : b.toNat < c.toNat
          · rw [if_pos (Nat.lt_trans hab hbc)]
          · by_cases hcb : c.toNat < b.toNat
            · rw [if_neg hbc, if_pos hcb] at hyz
              exact Bool.noConfusion hyz
            · have hac : a.toNat < c.toNat := by omega
              rw [if_pos hac]
        · by_cases hba : b.toNat < a.toNat
          · rw [if_neg hab, if_pos hba] at hxy
            exact Bool.noConfusion hxy
          · rw [if_neg hab, if_neg hba] at hxy
            by_cases hbc : b.toNat < c.toNat
            · have hac : a.toNat < c.toNat := by omega
              rw [if_pos hac]
            · by_cases hcb : c.toNat < b.toNat
              · rw [if_neg hbc, if_pos hcb] at hyz
                exact Bool.noConfusion hyz
              · rw [if_neg hbc, if_neg hcb] at hyz
                have hac1 : ¬ a.toNat < c.toNat := by omega
                have hac2 : ¬ c.toNat < a.toNat := by omega
                rw [if_neg hac1, if_neg hac2]
                exact ih hxy hyz

theorem lexLe_total (x y : List Char) : lexLe x y = true ∨ lexLe y x = true := by
  induction x generalizing y with
  | nil => left; rfl
  | cons a as ih =>
    cases y with
    | nil => right; rfl
    | cons b bs =>
      simp only [lexLe]
      by_cases hab : a.toNat < b.toNat
      · left
        rw [if_pos hab]
      · by_cases hba : b.toNat < a.toNat
        · right
          rw [if_pos hba]
        · rw [if_neg hab, if_neg hba, if_neg hba, if_neg hab]
          exact ih bs

theorem strLe_trans {x y z : String} (h1 : strLe x y = true)
    (h2 : strLe y z = true) : strLe x z = true := lexLe_trans h1 h2

theorem strLe_total (x y : String) : strLe x y = true ∨ strLe y x = true :=
  lexLe_total x.data y.data

theorem insertSorted_perm (x : String) (l : List String) :
    (insertSorted x l).Perm (x :: l) := by
  induction l with
  | nil => exact List.Perm.refl _
  | cons y ys ih =>
    by_cases h : strLe x y = true
    · simp [insertSorted, h]
    · simp only [insertSorted, h, if_false]
      exact (List.Perm.cons y ih).trans (List.Perm.swap x y ys)

theorem sortStrings_perm (l : List String) : (sortStrings l).Perm l := by
  induction l with
  | nil => exact List.Perm.refl _
  | cons x xs ih =>
    exact (insertSorted_perm x (sortStrings xs)).trans (List.Perm.cons x ih)

theorem insertSorted_pairwise (x : String) (l : List String)
    (hl : l.Pairwise (fun a b => strLe a b = true)) :
    (insertSorted x l).Pairwise (fun a b => strLe a b = true) := by
  induction l with
  | nil => simp [insertSorted]
  | cons y ys ih =>
    rcases List.pairwise_cons.1 hl with ⟨hy, hys⟩
    by_cases h : strLe x y = true
    · simp only [insertSorted, h, if_true]
      refine List.pairwise_cons.2 ⟨?_, hl⟩
      intro z hz
      rcases List.mem_cons.1 hz with rfl | hz2
      · exact h
      · exact strLe_trans h (hy z hz2)
    · simp only [insertSorted, h, if_false]
      refine List.pairwise_cons.2 ⟨?_, ih hys⟩
      intro z hz
      have hz1 := (insertSorted_perm x ys).mem_iff.1 hz
      rcases List.mem_cons.1 hz1 with rfl | hz2
      · rcases strLe_total z y with h1 | h1
        · exact absurd h1 h
        · exact h1
      · exact hy z hz2

theorem sortStrings_pairwise (l : List String) :
    (sortStrings l).Pairwise (fun a b => strLe a b = true) := by
  induction l with
  | nil => exact List.Pairwise.nil
  | cons x xs ih => exact insertSorted_pairwise x (sortStrings xs) ih

/-- Claim C1: print_network yields exactly one line per registered
person, in registry insertion order, each formatted as the name, the
fixed separator text, and the lexicographically sorted friend names
joined by ", ", or the placeholder when the friends list is empty; on
the state built by the demo registrations and edges it yields exactly
the six expected lines in order. -/
theorem claim1_report_lines :
    (SocialNetwork.print_network demoState).1 =
      ["Alex is friends with: Jordan, Morgan, Taylor",
       "Jordan is friends with: Alex, Taylor",
       "Morgan is friends with: Alex, Casey, Riley",
       "Taylor is friends with: Alex, Jordan, Riley",
       "Casey is friends with: Morgan, Riley",
       "Riley is friends with: Casey, Morgan, Taylor"] ∧
    (SocialNetwork.print_network (run SocialNetwork.empty [Op.person "Solo"])).1 =
      ["Solo is friends with: (no friends yet)"] ∧
    (∀ n : SocialNetwork,
      (SocialNetwork.print_network n).1.length = n.people.length) ∧
    (∀ l : List String, (sortStrings l).Perm l ∧
      (sortStrings l).Pairwise (fun a b => strLe a b = true)) :=
  ⟨rfl, rfl, fun n => by simp [SocialNetwork.print_network],
   fun l => ⟨sortStrings_perm l, sortStrings_pairwise l⟩⟩

/-- Claim C2: in every reachable state, for every pair of names, b is
listed among the friends of a exactly when a is listed among the
friends of b. -/
theorem claim2_symmetry (n : SocialNetwork) (h : Reachable n) (a b : String) :
    isFriend n a b = isFriend n b a := by
  have inv := reachable_inv h
  cases ha : dictLookup n.people a with
  | none =>
    cases hb : dictLookup n.people b with
    | none => simp [isFriend, ha, hb]
    | some rb => simp [isFriend, ha, hb]
  | some ra =>
    cases hb : dictLookup n.people b with
    | none => simp [isFriend, ha, hb]
    | some rb =>
      have hra := inv.lookup_lt ha
      have hrb := inv.lookup_lt hb
      obtain ⟨pa, hga⟩ := get?_eq_some_of_lt n.heap ra hra
      obtain ⟨pb, hgb⟩ := get?_eq_some_of_lt n.heap rb hrb
      simp only [isFriend, ha, hb, hga, hgb]
      exact decide_eq_decide.2 (inv.symm ra rb _ _ hga hgb)

/-- Witness for C2 at the demo state. -/
theorem claim2_symmetry_witness :
    isFriend demoState "Alex" "Jordan" = isFriend demoState "Jordan" "Alex" :=
  claim2_symmetry demoState demoState_reachable "Alex" "Jordan"

/-- Claim C3: for distinct registered names, repeating an
add_friendship call leaves the state of the first call unchanged and
reports no diagnostic. -/
theorem claim3_idempotent (n : SocialNetwork) (h : Reachable n) (a b : String)
    (ha : (dictLookup n.people a).isSome) (hb : (dictLookup n.people b).isSome)
    (hab : a ≠ b) :
    ((n.add_friendship a b).1).add_friendship a b
      = ((n.add_friendship a b).1, none) := by
  have inv := reachable_inv h
  obtain ⟨ra, hra⟩ := Option.isSome_iff_exists.1 ha
  obtain ⟨rb, hrb⟩ := Option.isSome_iff_exists.1 hb
  have hlta := inv.lookup_lt hra
  have hltb := inv.lookup_lt hrb
  have hne := inv.lookup_inj hra hrb hab
  obtain ⟨pa, hga⟩ := get?_eq_some_of_lt n.heap ra hlta
  obtain ⟨pb, hgb⟩ := get?_eq_some_of_lt n.heap rb hltb
  have hmain : (n.add_friendship a b).1 =
      ⟨heapAddFriend (heapAddFriend n.heap ra rb) rb ra, n.people⟩ := by
    simp [SocialNetwork.add_friendship, hra, hrb, hab]
  have hg := add_friendship_heap_get? hne hga hgb
  have hg2a : (heapAddFriend (heapAddFriend n.heap ra rb) rb ra).get? ra
      = some (pa.add_friend ra rb) := by
    rw [hg ra, if_neg hne, if_pos rfl]
  have hmema : rb ∈ (pa.add_friend ra rb).friends :=
    (add_friend_mem pa ra rb (Ne.symm hne) rb).2 (Or.inr rfl)
  have step1 : heapAddFriend (heapAddFriend (heapAddFriend n.heap ra rb) rb ra) ra rb
      = heapAddFriend (heapAddFriend n.heap ra rb) rb ra := by
    rw [heapAddFriend_eq_set _ _ _ _ hg2a, add_friend_of_mem _ _ _ hmema]
    exact list_set_self hg2a
  have hg2b : (heapAddFriend (heapAddFriend n.heap ra rb) rb ra).get? rb
      = some (pb.add_friend rb ra) := by
    rw [hg rb, if_pos rfl]
  have hmemb : ra ∈ (pb.add_friend rb ra).friends :=
    (add_friend_mem pb rb ra hne ra).2 (Or.inr rfl)
  have step2 : heapAddFriend (heapAddFriend (heapAddFriend n.heap ra rb) rb ra) rb ra
      = heapAddFriend (heapAddFriend n.heap ra rb) rb ra := by
    rw [heapAddFriend_eq_set _ _ _ _ hg2b, add_friend_of_mem _ _ _ hmemb]
    exact list_set_self hg2b
  rw [hmain]
  simp only [SocialNetwork.add_friendship, hra, hrb, if_neg hab, step1, step2]

/-- Witness for C3 at the demo state and the first demo edge. -/
theorem claim3_idempotent_witness :
    ((demoState.add_friendship "Alex" "Jordan").1).add_friendship "Alex" "Jordan"
      = ((demoState.add_friendship "Alex" "Jordan").1, none) :=
  claim3_idempotent demoState demoState_reachable "Alex" "Jordan"
    rfl rfl (by decide)

theorem add_person_of_mem (m : SocialNetwork) (x : String)
    (hx : (dictLookup m.people x).isSome) :
    m.add_person x = (m, some (Diag.duplicatePerson x)) := by
  simp [SocialNetwork.add_person, hx]

/-- Claim C4: from any reachable state, after add_person(x) exactly
one registry entry is keyed by x; when x was absent the call succeeds
silently and stores a fresh Person named x with no friends; and a
repeated add_person(x) is a no-op that reports the duplicate
diagnostic. -/
theorem claim4_add_person_twice (n : SocialNetwork) (h : Reachable n)
    (x : String) :
    countKey ((n.add_person x).1).people x = 1 ∧
    (dictLookup n.people x = none →
      (n.add_person x).2 = none ∧
      dictLookup ((n.add_person x).1).people x = some n.heap.length ∧
      ((n.add_person x).1).heap.get? n.heap.length = some ⟨x, []⟩) ∧
    ((n.add_person x).1).add_person x
      = ((n.add_person x).1, some (Diag.duplicatePerson x)) := by
  have inv := reachable_inv h
  have hnodup : (n.people.map Prod.fst).Nodup := by
    rw [inv.keysEq]
    exact inv.namesNodup
  cases hx : dictLookup n.people x with
  | some v =>
    have hn1 : (n.add_person x).1 = n := by
      simp [SocialNetwork.add_person, hx]
    have hmem : x ∈ n.people.map Prod.fst :=
      List.mem_map_of_mem Prod.fst (dictLookup_mem hx)
    refine ⟨?_, ?_, ?_⟩
    · rw [hn1]
      exact countKey_eq_one_of_nodup hnodup hmem
    · intro hnone
      exact Option.noConfusion hnone
    · rw [hn1]
      simp [SocialNetwork.add_person, hx]
  | none =>
    have hxmem : x ∉ n.people.map Prod.fst := (dictLookup_eq_none_iff _ _).1 hx
    have hn1 : (n.add_person x).1 =
        ⟨n.heap ++ [⟨x, []⟩], n.people ++ [(x, n.heap.length)]⟩ := by
      simp [SocialNetwork.add_person, hx]
    have hlook1 : dictLookup ((n.add_person x).1).people x = some n.heap.length := by
      rw [hn1, dictLookup_append, hx]
      simp [dictLookup]
    refine ⟨?_, ?_, ?_⟩
    · rw [hn1, countKey_append, countKey_eq_zero_of_not_mem hxmem]
      simp [countKey, dictLookup]
    · intro _
      refine ⟨by simp [SocialNetwork.add_person, hx], hlook1, ?_⟩
      rw [hn1, List.get?_eq_getElem?]
      exact List.getElem?_concat_length n.heap ⟨x, []⟩
    · exact add_person_of_mem _ x (by rw [hlook1]; rfl)

/-- Witness for C4 starting from the empty network. -/
theorem claim4_add_person_twice_witness :
    countKey ((SocialNetwork.empty.add_person "A").1).people "A" = 1 ∧
    ((SocialNetwork.empty.add_person "A").1).add_person "A"
      = ((SocialNetwork.empty.add_person "A").1, some (Diag.duplicatePerson "A")) ∧
    (SocialNetwork.empty.add_person "A").2 = none ∧
    dictLookup ((SocialNetwork.empty.add_person "A").1).people "A" = some 0 :=
  ⟨(claim4_add_person_twice SocialNetwork.empty Reachable.empty "A").1,
   (claim4_add_person_twice SocialNetwork.empty Reachable.empty "A").2.2,
   ((claim4_add_person_twice SocialNetwork.empty Reachable.empty "A").2.1 rfl).1,
   ((claim4_add_person_twice SocialNetwork.empty Reachable.empty "A").2.1 rfl).2.1⟩

/-- Claim C5: every call that reports a diagnostic leaves the state
exactly unchanged, and a successful add_friendship adds both
directions of the edge. -/
theorem claim5_diag_no_mutation (n : SocialNetwork) (h : Reachable n)
    (x a b : String) :
    ((n.add_person x).2.isSome → (n.add_person x).1 = n) ∧
    ((n.add_friendship a b).2.isSome → (n.add_friendship a b).1 = n) ∧
    ((n.add_friendship a b).2 = none →
      isFriend (n.add_friendship a b).1 a b = true ∧
      isFriend (n.add_friendship a b).1 b a = true) := by
  have inv := reachable_inv h
  refine ⟨?_, ?_, ?_⟩
  · intro hd
    by_cases hx : (dictLookup n.people x).isSome
    · simp [SocialNetwork.add_person, hx]
    · simp [SocialNetwork.add_person, hx] at hd
  · intro hd
    cases ha : dictLookup n.people a with
    | none => simp [SocialNetwork.add_friendship, ha]
    | some ra =>
      cases hb : dictLookup n.people b with
      | none => simp [SocialNetwork.add_friendship, ha, hb]
      | some rb =>
        by_cases hab : a = b
        · simp [SocialNetwork.add_friendship, ha, hb, hab]
        · simp [SocialNetwork.add_friendship, ha, hb, hab] at hd
  · intro hd
    cases ha : dictLookup n.people a with
    | none => simp [SocialNetwork.add_friendship, ha] at hd
    | some ra =>
      cases hb : dictLookup n.people b with
      | none => simp [SocialNetwork.add_friendship, ha, hb] at hd
      | some rb =>
        by_cases hab : a = b
        · simp [SocialNetwork.add_friendship, ha, hb, hab] at hd
        · have hlta := inv.lookup_lt ha
          have hltb := inv.lookup_lt hb
          have hne := inv.lookup_inj ha hb hab
          obtain ⟨pa, hga⟩ := get?_eq_some_of_lt n.heap ra hlta
          obtain ⟨pb, hgb⟩ := get?_eq_some_of_lt n.heap rb hltb
          have hmain : (n.add_friendship a b).1 =
              ⟨heapAddFriend (heapAddFriend n.heap ra rb) rb ra, n.people⟩ := by
            simp [SocialNetwork.add_friendship, ha, hb, hab]
          have hg := add_friendship_heap_get? hne hga hgb
          have hg2a : (heapAddFriend (heapAddFriend n.heap ra rb) rb ra).get? ra
              = some (pa.add_friend ra rb) := by
            rw [hg ra, if_neg hne, if_pos rfl]
          have hg2b : (heapAddFriend (heapAddFriend n.heap ra rb) rb ra).get? rb
              = some (pb.add_friend rb ra) := by
            rw [hg rb, if_pos rfl]
          have hmema : rb ∈ (pa.add_friend ra rb).friends :=
            (add_friend_mem pa ra rb (Ne.symm hne) rb).2 (Or.inr rfl)
          have hmemb : ra ∈ (pb.add_friend rb ra).friends :=
            (add_friend_mem pb rb ra hne ra).2 (Or.inr rfl)
          rw [hmain]
          constructor
          · simp only [isFriend, ha, hb, hg2a]
            exact decide_eq_true hmema
          · simp only [isFriend, ha, hb, hg2b]
            exact decide_eq_true hmemb

/-- Witness for C5 at the demo state. -/
theorem claim5_diag_no_mutation_witness :
    ((demoState.add_person "Alex").2.isSome →
      (demoState.add_person "Alex").1 = demoState) ∧
    isFriend (demoState.add_friendship "Alex" "Casey").1 "Alex" "Casey" = true :=
  ⟨(claim5_diag_no_mutation demoState demoState_reachable "Alex" "Alex" "Casey").1,
   ((claim5_diag_no_mutation demoState demoState_reachable "Alex" "Alex"
      "Casey").2.2 rfl).1⟩

/-- Claim C6: add_friendship checks its three preconditions in order,
short-circuiting: an unregistered first name is reported first (also
when both names are unregistered, and also for add_friendship(x,x)
with x unregistered); an unregistered second name is reported next;
equal registered names are reported last. -/
theorem claim6_check_order (n : SocialNetwork) (a b : String) :
    (dictLookup n.people a = none →
      n.add_friendship a b = (n, some (Diag.unknownPerson a)) ∧
      n.add_friendship a a = (n, some (Diag.unknownPerson a))) ∧
    ((dictLookup n.people a).isSome → dictLookup n.people b = none →
      n.add_friendship a b = (n, some (Diag.unknownPerson b))) ∧
    ((dictLookup n.people a).isSome → a = b →
      n.add_friendship a b = (n, some Diag.selfFriendship)) := by
  refine ⟨?_, ?_, ?_⟩
  · intro ha
    constructor <;> simp [SocialNetwork.add_friendship, ha]
  · intro ha hb
    obtain ⟨ra, hra⟩ := Option.isSome_iff_exists.1 ha
    simp [SocialNetwork.add_friendship, hra, hb]
  · intro ha hab
    obtain ⟨ra, hra⟩ := Option.isSome_iff_exists.1 ha
    subst hab
    simp [SocialNetwork.add_friendship, hra]

/-- Witness for C6: all four diagnostic situations at small concrete
states. -/
theorem claim6_check_order_witness :
    SocialNetwork.empty.add_friendship "A" "B"
      = (SocialNetwork.empty, some (Diag.unknownPerson "A")) ∧
    SocialNetwork.empty.add_friendship "A" "A"
      = (SocialNetwork.empty, some (Diag.unknownPerson "A")) ∧
    ((SocialNetwork.empty.add_person "A").1).add_friendship "A" "B"
      = ((SocialNetwork.empty.add_person "A").1, some (Diag.unknownPerson "B")) ∧
    ((SocialNetwork.empty.add_person "A").1).add_friendship "A" "A"
      = ((SocialNetwork.empty.add_person "A").1, some Diag.selfFriendship) :=
  ⟨((claim6_check_order SocialNetwork.empty "A" "B").1 rfl).1,
   ((claim6_check_order SocialNetwork.empty "A" "B").1 rfl).2,
   (claim6_check_order (SocialNetwork.empty.add_person "A").1 "A" "B").2.1 rfl rfl,
   (claim6_check_order (SocialNetwork.empty.add_person "A").1 "A" "A").2.2 rfl rfl⟩

/-- Counterexample to C7 as stated: two distinct Person objects (here
living at references 0 and 1) can carry the same name "A"; the guard
in add_friend is the object identity test friend is self, not a name
comparison, so the call does extend the friends list although the
identity strings of the two objects are equal. -/
theorem claim7_counterexample :
    (Person.mk "A" []).name = (Person.mk "A" []).name ∧
    ((Person.mk "A" []).add_friend 0 1).friends ≠ (Person.mk "A" []).friends :=
  ⟨rfl, by decide⟩

/-- Claim C7 amended: add_friend is a no-op exactly when the friend is
the same object as self (equal heap references) or is already present;
otherwise it appends the friend reference and never touches the name.
Within one network, where each name maps to a single object, equal
names imply equal references, giving the original string form there. -/
theorem claim7_add_friend_guard (p : Person) (selfRef friendRef : Nat) :
    (friendRef = selfRef → p.add_friend selfRef friendRef = p) ∧
    (friendRef ∈ p.friends → p.add_friend selfRef friendRef = p) ∧
    (friendRef ≠ selfRef → friendRef ∉ p.friends →
      (p.add_friend selfRef friendRef).friends = p.friends ++ [friendRef] ∧
      (p.add_friend selfRef friendRef).name = p.name) := by
  refine ⟨?_, ?_, ?_⟩
  · intro hf
    unfold Person.add_friend
    rw [if_pos hf]
  · intro hf
    exact add_friend_of_mem p selfRef friendRef hf
  · intro h1 h2
    constructor
    · unfold Person.add_friend
      rw [if_neg h1, if_neg h2]
    · exact add_friend_name p selfRef friendRef

/-- Witness for C7 amended, at a person with one existing friend. -/
theorem claim7_add_friend_guard_witness :
    (Person.mk "A" [2]).add_friend 0 0 = Person.mk "A" [2] ∧
    (Person.mk "A" [2]).add_friend 0 2 = Person.mk "A" [2] ∧
    ((Person.mk "A" [2]).add_friend 0 1).friends = [2, 1] :=
  ⟨(claim7_add_friend_guard (Person.mk "A" [2]) 0 0).1 rfl,
   (claim7_add_friend_guard (Person.mk "A" [2]) 0 2).2.1 (by decide),
   ((claim7_add_friend_guard (Person.mk "A" [2]) 0 1).2.2 (by decide)
      (by decide)).1⟩

/-- Claim C8: add_person validates nothing but existence: any
unregistered string, the empty string included, is registered silently
as a Person carrying exactly that string and no friends, and an
empty-string person then takes part in add_friendship and in the
report like any other person. -/
theorem claim8_no_validation :
    (∀ (n : SocialNetwork) (s : String), dictLookup n.people s = none →
      (n.add_person s).2 = none ∧
      dictLookup ((n.add_person s).1).people s = some n.heap.length ∧
      ((n.add_person s).1).heap.get? n.heap.length = some ⟨s, []⟩) ∧
    (SocialNetwork.print_network (run SocialNetwork.empty
        [Op.person "", Op.person "Bob", Op.friendship "" "Bob"])).1 =
      [" is friends with: Bob", "Bob is friends with: "] := by
  constructor
  · intro n s hnone
    refine ⟨by simp [SocialNetwork.add_person, hnone], ?_, ?_⟩
    · have hn1 : (n.add_person s).1 =
          ⟨n.heap ++ [⟨s, []⟩], n.people ++ [(s, n.heap.length)]⟩ := by
        simp [SocialNetwork.add_person, hnone]
      rw [hn1, dictLookup_append, hnone]
      simp [dictLookup]
    · have hn1 : (n.add_person s).1 =
          ⟨n.heap ++ [⟨s, []⟩], n.people ++ [(s, n.heap.length)]⟩ := by
        simp [SocialNetwork.add_person, hnone]
      rw [hn1, List.get?_eq_getElem?]
      exact List.getElem?_concat_length n.heap ⟨s, []⟩
  · rfl

/-- Witness for C8: registering the empty string in the empty
network. -/
theorem claim8_no_validation_witness :
    (SocialNetwork.empty.add_person "").2 = none ∧
    dictLookup ((SocialNetwork.empty.add_person "").1).people "" = some 0 ∧
    ((SocialNetwork.empty.add_person "").1).heap.get? 0 = some ⟨"", []⟩ :=
  claim8_no_validation.1 SocialNetwork.empty "" rfl

/-- Claim C9: print_network is a pure read: it returns the state it
was given, unchanged in every component; in the source the only sort
acts on the per-line local list friend_names, never on a stored
friends list. -/
theorem claim9_report_pure (n : SocialNetwork) :
    (SocialNetwork.print_network n).2 = n ∧
    ((SocialNetwork.print_network n).2).heap.map Person.friends
      = n.heap.map Person.friends ∧
    ((SocialNetwork.print_network n).2).people = n.people :=
  ⟨rfl, rfl, rfl⟩

/-- Claim C10: add_friendship is commutative in its two arguments as a
state transformer, on every state: the resulting network is identical
whichever order the two names are passed in (diagnostics may name a
different side, but the state agrees). -/
theorem claim10_commutative (n : SocialNetwork) (a b : String) :
    (n.add_friendship a b).1 = (n.add_friendship b a).1 := by
  cases ha : dictLookup n.people a with
  | none =>
    cases hb : dictLookup n.people b with
    | none => simp [SocialNetwork.add_friendship, ha, hb]
    | some rb => simp [SocialNetwork.add_friendship, ha, hb]
  | some ra =>
    cases hb : dictLookup n.people b with
    | none => simp [SocialNetwork.add_friendship, ha, hb]
    | some rb =>
      by_cases hab : a = b
      · subst hab
        simp [SocialNetwork.add_friendship, ha]
      · have hba : b ≠ a := Ne.symm hab
        have hcomm := heapAddFriend_comm n.heap ra rb
        simp [SocialNetwork.add_friendship, ha, hb, hab, hba, hcomm]

end SocialNet
